import Mathlib

/-!
Verification development for the ml-pipeline-tool backend.

The repository's core is `ml-backend/ml_engine.py` (topological sequencing of
the pipeline graph, the "Model Training" reachability gate, dataset loading,
and the training orchestration skeleton) and `ml-backend/predict.py` (the
inference runner).  Below, the Python functions are shallowly embedded as
executable Lean definitions: Python dicts keyed by node id become explicit
association lists with first-match update semantics (Python dicts preserve
insertion order), the `collections.deque` FIFO becomes a list with
head-removal/tail-append, per-image extraction failure becomes `Option`, the
external ML primitives (PIL feature extraction, sklearn split/fit/evaluate)
become function parameters, and a raised exception escaping a function becomes
a dedicated result constructor.
-/

namespace MLPipeline

/-- A pipeline node from the job payload: `{id, data: {label}}`. -/
structure Node where
  id : Nat
  label : String
deriving DecidableEq, Repr

/-- A pipeline edge from the job payload: `{source, target}`. -/
structure Edge where
  source : Nat
  target : Nat
deriving DecidableEq, Repr

/-! ### Python dict model

`in_degree` in `build_execution_order` is a Python dict keyed by node id.
We model it as an association list in insertion order; updating an existing
key rewrites the first (and, by construction, only) matching entry in place,
as Python does. Values are `Int` because the source decrements without a
lower bound. -/

abbrev Dict := List (Nat × Int)

/-- The keys of the dict, in insertion order. -/
def dkeys (d : Dict) : List Nat := d.map Prod.fst

/-- Membership test (`k in d`). -/
def dmem (d : Dict) (k : Nat) : Bool := d.any (fun p => p.1 == k)

/-- Lookup (`d[k]`); only ever applied to present keys in the embedding. -/
def dget (d : Dict) (k : Nat) : Int :=
  match d.find? (fun p => p.1 == k) with
  | some p => p.2
  | none => 0

/-- Update (`d[k] = v`): rewrite the first matching entry in place. -/
def dset : Dict → Nat → Int → Dict
  | [], _, _ => []
  | p :: ps, k, v => if p.1 == k then (k, v) :: ps else p :: dset ps k v

/-- `in_degree = {node['id']: 0 for node in nodes}`: one entry per distinct id,
in first-occurrence order (re-inserting an existing key keeps its position and
re-writes the value, which is `0` either way). -/
def indeg_of_nodes (nodes : List Node) : Dict :=
  nodes.foldl (fun d n => if dmem d n.id then d else d ++ [(n.id, 0)]) []

/-- The edge loop `for edge in edges: graph[source].append(target);
in_degree[target] += 1`.  `graph` is a `defaultdict` so the append always
succeeds, but `in_degree[edge['target']] += 1` raises `KeyError` when the
target id is not a declared node: modelled by `none`. -/
def addEdges : Dict → List Edge → Option Dict
  | d, [] => some d
  | d, e :: es =>
    if dmem d e.target then addEdges (dset d e.target (dget d e.target + 1)) es
    else none

/-- The adjacency produced by the edge loop: `graph[s]` lists the targets of
the edges with source `s`, in edge order (`defaultdict(list)`: absent keys
read as `[]`). -/
def adj (edges : List Edge) (s : Nat) : List Nat :=
  (edges.filter (fun e => e.source == s)).map Edge.target

/-- The inner loop of Kahn's algorithm: for each `neighbor` of the dequeued
node, `in_degree[neighbor] -= 1`, and enqueue it when it reaches zero.
Returns the updated in-degree dict and queue. -/
def processNeighbors (indeg : Dict) (queue : List Nat) : List Nat → Dict × List Nat
  | [] => (indeg, queue)
  | t :: ts =>
    let v := dget indeg t - 1
    let indeg' := dset indeg t v
    let queue' := if v == 0 then queue ++ [t] else queue
    processNeighbors indeg' queue' ts

/-- Termination measure: total positive in-degree mass of the dict. -/
def dweight (d : Dict) : Nat := (d.map (fun p => p.2.toNat)).sum

theorem dget_cons_self {p : Nat × Int} {ps : Dict} {k : Nat} (h : p.1 = k) :
    dget (p :: ps) k = p.2 := by
  have hb : (p.1 == k) = true := by simp [h]
  simp [dget, List.find?, hb]

theorem dget_cons_ne {p : Nat × Int} {ps : Dict} {k : Nat} (h : ¬ p.1 = k) :
    dget (p :: ps) k = dget ps k := by
  have hb : (p.1 == k) = false := by simp [h]
  simp [dget, List.find?, hb]

theorem dset_cons_self {p : Nat × Int} {ps : Dict} {k : Nat} {v : Int} (h : p.1 = k) :
    dset (p :: ps) k v = (k, v) :: ps := by
  have hb : (p.1 == k) = true := by simp [h]
  simp [dset, hb]

theorem dset_cons_ne {p : Nat × Int} {ps : Dict} {k : Nat} {v : Int} (h : ¬ p.1 = k) :
    dset (p :: ps) k v = p :: dset ps k v := by
  have hb : (p.1 == k) = false := by simp [h]
  simp [dset, hb]

theorem dweight_cons (p : Nat × Int) (ps : Dict) :
    dweight (p :: ps) = p.2.toNat + dweight ps := by
  simp [dweight]

theorem dweight_dset_dec (d : Dict) (k : Nat) :
    dweight (dset d k (dget d k - 1)) ≤ dweight d := by
  induction d with
  | nil => simp [dset]
  | cons p ps ih =>
    by_cases h : p.1 = k
    · rw [dget_cons_self h, dset_cons_self h, dweight_cons, dweight_cons]
      have : (p.2 - 1).toNat ≤ p.2.toNat := Int.toNat_le_toNat (by omega)
      omega
    · rw [dget_cons_ne h, dset_cons_ne h, dweight_cons, dweight_cons]
      omega

theorem dweight_dset_dec_strict (d : Dict) (k : Nat) (h1 : dget d k = 1) :
    dweight (dset d k (dget d k - 1)) < dweight d := by
  induction d with
  | nil => simp [dget] at h1
  | cons p ps ih =>
    by_cases h : p.1 = k
    · rw [dget_cons_self h] at h1
      rw [dget_cons_self h, dset_cons_self h, dweight_cons, dweight_cons, h1]
      omega
    · rw [dget_cons_ne h] at h1
      rw [dget_cons_ne h, dset_cons_ne h, dweight_cons, dweight_cons]
      have := ih h1
      omega

theorem processNeighbors_measure (ts : List Nat) :
    ∀ (indeg : Dict) (queue : List Nat),
    (processNeighbors indeg queue ts).2.length + dweight (processNeighbors indeg queue ts).1 ≤
      queue.length + dweight indeg := by
  induction ts with
  | nil => intro indeg queue; simp [processNeighbors]
  | cons t ts ih =>
    intro indeg queue
    simp only [processNeighbors]
    by_cases hv : dget indeg t - 1 = 0
    · have hb : (dget indeg t - 1 == 0) = true := by simp [hv]
      simp only [hb, if_true]
      have h1 : dget indeg t = 1 := by omega
      have hstep := dweight_dset_dec_strict indeg t h1
      have := ih (dset indeg t (dget indeg t - 1)) (queue ++ [t])
      simp only [List.length_append, List.length_cons, List.length_nil] at this ⊢
      omega
    · have hb : (dget indeg t - 1 == 0) = false := by simp [hv]
      simp only [hb, Bool.false_eq_true, if_false]
      have hstep := dweight_dset_dec indeg t
      have := ih (dset indeg t (dget indeg t - 1)) queue
      omega

/-- The `while queue:` loop of `build_execution_order`: dequeue from the
front, append to the order, decrement each successor, enqueueing those that
reach in-degree zero. -/
def kahn (graph : Nat → List Nat) : Dict → List Nat → List Nat → List Nat
  | _, [], order => order
  | indeg, nid :: rest, order =>
    kahn graph (processNeighbors indeg rest (graph nid)).1
      (processNeighbors indeg rest (graph nid)).2 (order ++ [nid])
termination_by indeg queue _ => queue.length + dweight indeg
decreasing_by
  have := processNeighbors_measure (graph nid) indeg rest
  simp only [List.length_cons]
  omega

/-- `build_execution_order(nodes, edges)`: Kahn's algorithm seeded with the
in-degree-zero node ids in dict-iteration (= first-occurrence) order.
`none` models the `KeyError` raised when an edge's target id is not a
declared node. -/
def build_execution_order (nodes : List Node) (edges : List Edge) : Option (List Nat) :=
  match addEdges (indeg_of_nodes nodes) edges with
  | none => none
  | some indeg =>
    let queue := (indeg.filter (fun p => p.2 == 0)).map Prod.fst
    some (kahn (adj edges) indeg queue [])

/-- The Sequencer as the spec's §4.2 words describe its seeding: identical to
`build_execution_order`, except that the initial ready-queue is sorted in
ascending node-id order.  Introduced only to compare the claimed seeding
policy with the source's actual (insertion-order) seeding. -/
def build_execution_order_ascSeed (nodes : List Node) (edges : List Edge) :
    Option (List Nat) :=
  match addEdges (indeg_of_nodes nodes) edges with
  | none => none
  | some indeg =>
    let queue := ((indeg.filter (fun p => p.2 == 0)).map Prod.fst).insertionSort (· ≤ ·)
    some (kahn (adj edges) indeg queue [])

/-! ### Dataset loader, reachability gate and orchestration

Python `str` operations are character-based, so `file.lower()` and
`str.endswith` are modelled on the character list of a Lean `String`. -/

/-- `Char` lowering for `str.lower()` (ASCII, which is all the allow-list
comparison needs). -/
def lowerChar (c : Char) : Char :=
  if 65 ≤ c.toNat ∧ c.toNat ≤ 90 then Char.ofNat (c.toNat + 32) else c

/-- `s.lower()`. -/
def lowerStr (s : String) : String := ⟨s.data.map lowerChar⟩

/-- `s.endswith(suf)`. -/
def strEndsWith (s suf : String) : Bool := suf.data.isSuffixOf s.data

/-- `file.lower().endswith(('.png', '.jpg', '.jpeg', '.bmp'))`. -/
def has_image_ext (f : String) : Bool :=
  strEndsWith (lowerStr f) ".png" || strEndsWith (lowerStr f) ".jpg" ||
    strEndsWith (lowerStr f) ".jpeg" || strEndsWith (lowerStr f) ".bmp"

/-- One entry of `os.listdir(image_dir)`, with the information the loader
queries about it: its name, whether it is a directory, and (when it is) the
names `os.listdir` returns inside it. -/
structure DirEntry where
  name : String
  isDir : Bool
  files : List String
deriving Repr

/-- The dataset-loading loop of `run_pipeline` (lines 56-63): every immediate
subdirectory name is a class label; within it, files passing the extension
allow-list become `(path, label)` samples; non-directory entries at the root
are skipped. -/
def load_dataset (image_dir : String) (listing : List DirEntry) :
    List (String × String) :=
  listing.foldl
    (fun acc e =>
      if e.isDir then
        acc ++ (e.files.filter has_image_ext).map
          (fun f => (image_dir ++ "/" ++ e.name ++ "/" ++ f, e.name))
      else acc)
    []

/-- `id_to_label = {node['id']: node['data']['label'] for node in nodes}` with
`.get(node_id, "Unknown")`: for a duplicated id the dict keeps the last
assignment, hence the reversed search. -/
def id_to_label (nodes : List Node) (nid : Nat) : String :=
  match nodes.reverse.find? (fun n => n.id == nid) with
  | some n => n.label
  | none => "Unknown"

/-- The stage walk of `run_pipeline` (lines 74-83): append each visited node's
label to `stages` and break at the first label equal to `"Model Training"`.
Returns the stages log and the `model_training_reached` flag. -/
def stage_walk (labelOf : Nat → String) : List Nat → List String × Bool
  | [] => ([], false)
  | nid :: rest =>
    let label := labelOf nid
    if label = "Model Training" then ([label], true)
    else
      let s := stage_walk labelOf rest
      (label :: s.1, s.2)

/-- `LabelEncoder.fit_transform`: classes are the distinct labels in sorted
order, each label mapped to its class index. -/
def label_encode (y : List String) : List Nat :=
  let classes := y.dedup.insertionSort (fun a b => a ≤ b)
  y.map (fun lbl => classes.indexOf lbl)

/-- `model_path = os.path.join(project_root, 'model.pkl')` in
`run_pipeline`, where `project_root` is the directory containing
`ml_engine.py`. -/
def training_model_path (project_root : String) : String :=
  project_root ++ "/model.pkl"

/-- `encoder_path = os.path.join(project_root, 'label_encoder.pkl')` in
`run_pipeline`. -/
def training_encoder_path (project_root : String) : String :=
  project_root ++ "/label_encoder.pkl"

/-- `model_path = os.path.join(base_dir, 'uploads', 'model.pkl')` in
`predict.py`, where `base_dir` is the directory containing `predict.py`
(the same `ml-backend` directory). -/
def predict_model_path (base_dir : String) : String :=
  base_dir ++ "/uploads/model.pkl"

/-- `encoder_path = os.path.join(base_dir, 'uploads', 'label_encoder.pkl')`
in `predict.py`. -/
def predict_encoder_path (base_dir : String) : String :=
  base_dir ++ "/uploads/label_encoder.pkl"

/-- The success record `run_pipeline` writes to stdout (lines 124-133). -/
structure SuccessRec (Acc : Type) where
  message : String
  model : String
  accuracy : Acc
  stagesExecuted : List String
  downloadLink : String
deriving Repr, DecidableEq

/-- Observable outcome of one `run_pipeline` call.  `errorReturn msg` is the
function returning the dict `{"error": msg}` to its caller (nothing written
to stdout by `run_pipeline` itself); `printed` is the success path, which
writes the artifact files and then the success record to stdout; `raised`
is an exception escaping the function (the `KeyError` from
`build_execution_order`). -/
inductive PipeResult (Acc : Type) where
  | raised
  | errorReturn (msg : String)
  | printed (writes : List String) (rec : SuccessRec Acc)
deriving Repr

/-- `run_pipeline(image_dir, nodes, edges)`.  The external ML primitives are
parameters: `extract` models `extract_features` (`none` = per-image failure,
logged and skipped), and `trainAcc` models the sklearn
split/fit/predict/accuracy block, consuming the feature matrix and the
encoded label vector and producing the accuracy value. -/
def run_pipeline {Feat Acc : Type} (extract : String → Option Feat)
    (trainAcc : List Feat → List Nat → Acc) (project_root : String)
    (image_dir : String) (listing : List DirEntry)
    (nodes : List Node) (edges : List Edge) : PipeResult Acc :=
  let dataset := load_dataset image_dir listing
  if dataset.isEmpty then .errorReturn "No valid images found."
  else
    match build_execution_order nodes edges with
    | none => .raised
    | some exec_order =>
      let walk := stage_walk (id_to_label nodes) exec_order
      if walk.2 = false then
        .errorReturn "Model Training node not connected in the pipeline."
      else
        let processed := dataset.filterMap
          (fun s => (extract s.1).map (fun f => (f, s.2)))
        if processed.isEmpty then
          .errorReturn "Feature extraction failed or no images were processed."
        else
          let X := processed.map Prod.fst
          let y_encoded := label_encode (processed.map Prod.snd)
          let accuracy := trainAcc X y_encoded
          .printed [training_model_path project_root, training_encoder_path project_root]
            { message := "Pipeline executed and model trained successfully!"
              model := "RandomForestClassifier"
              accuracy := accuracy
              stagesExecuted := walk.1
              downloadLink := "/uploads/model.pkl" }

/-- One record on the result channel (stdout): an error record
`{error, ...}` (`errRecTrace` is the catch-all record, whose message and
traceback derive from the exception) or the success record. -/
inductive OutRecord (Acc : Type) where
  | errRec (error : String)
  | errRecTrace
  | okRec (rec : SuccessRec Acc)
deriving Repr, DecidableEq

/-- Everything `main()` writes to stdout for one invocation (lines 135-155):
a missing image folder prints one error record; an exception escaping
`run_pipeline` is caught and prints one error record with a trace; the
success path prints one success record — but a dict returned by
`run_pipeline` is discarded (`run_pipeline(...)` is called as a statement),
so the error returns print nothing. -/
def main_stdout {Feat Acc : Type} (extract : String → Option Feat)
    (trainAcc : List Feat → List Nat → Acc) (project_root : String)
    (folder_exists : Bool) (image_dir : String) (listing : List DirEntry)
    (nodes : List Node) (edges : List Edge) : List (OutRecord Acc) :=
  if folder_exists = false then [.errRec "Extracted image folder not found."]
  else
    match run_pipeline extract trainAcc project_root image_dir listing nodes edges with
    | .raised => [.errRecTrace]
    | .errorReturn _ => []
    | .printed _ r => [.okRec r]

/-! ### Graph-theoretic notions for the Sequencer's specification -/

/-- `EdgeRel edges a b`: the graph declares an edge from `a` to `b`. -/
def EdgeRel (edges : List Edge) (a b : Nat) : Prop :=
  ∃ e ∈ edges, e.source = a ∧ e.target = b

/-- A graph is acyclic when no chain of declared edges returns to its
starting node. -/
def Acyclic (edges : List Edge) : Prop :=
  ∀ (x : Nat) (l : List Nat), ¬ List.Chain (EdgeRel edges) x (l ++ [x])

/-- `Before l a b`: `a` occurs strictly before `b` in the list `l`. -/
def Before (l : List Nat) (a b : Nat) : Prop :=
  ∃ l₁ l₂ l₃, l = l₁ ++ a :: l₂ ++ b :: l₃

/-! ### Dict and inner-loop lemmas for the Sequencer invariants -/

theorem dkeys_dset (d : Dict) (k : Nat) (v : Int) : dkeys (dset d k v) = dkeys d := by
  induction d with
  | nil => rfl
  | cons p ps ih =>
    by_cases h : p.1 = k
    · rw [dset_cons_self h]; simp [dkeys, h]
    · rw [dset_cons_ne h]; simp [dkeys] at ih ⊢; exact ih

theorem dget_dset_self {d : Dict} {k : Nat} (v : Int) (h : k ∈ dkeys d) :
    dget (dset d k v) k = v := by
  induction d with
  | nil => simp [dkeys] at h
  | cons p ps ih =>
    by_cases hp : p.1 = k
    · rw [dset_cons_self hp, dget_cons_self rfl]
    · rw [dset_cons_ne hp, dget_cons_ne hp]
      refine ih ?_
      simp [dkeys] at h ⊢
      rcases h with h | h
      · exact absurd h.symm hp
      · exact h

theorem dget_dset_ne {d : Dict} {k x : Nat} (v : Int) (h : ¬ x = k) :
    dget (dset d k v) x = dget d x := by
  induction d with
  | nil => simp [dset]
  | cons p ps ih =>
    by_cases hp : p.1 = k
    · rw [dset_cons_self hp]
      rw [dget_cons_ne (by omega), dget_cons_ne (by omega)]
    · rw [dset_cons_ne hp]
      by_cases hx : p.1 = x
      · rw [dget_cons_self hx, dget_cons_self hx]
      · rw [dget_cons_ne hx, dget_cons_ne hx]; exact ih

theorem dmem_iff_mem_dkeys (d : Dict) (k : Nat) : dmem d k = true ↔ k ∈ dkeys d := by
  induction d with
  | nil => simp [dmem, dkeys]
  | cons p ps ih =>
    simp only [dmem, dkeys, List.any_cons, List.map_cons, List.mem_cons,
      Bool.or_eq_true, beq_iff_eq] at ih ⊢
    constructor
    · rintro (h | h)
      · exact Or.inl h.symm
      · exact Or.inr (ih.mp h)
    · rintro (h | h)
      · exact Or.inl h.symm
      · exact Or.inr (ih.mpr h)

theorem dget_of_mem_nodup {d : Dict} {x : Nat} {v : Int}
    (hn : (dkeys d).Nodup) (h : (x, v) ∈ d) : dget d x = v := by
  induction d with
  | nil => simp at h
  | cons p ps ih =>
    rw [show dkeys (p :: ps) = p.1 :: dkeys ps from rfl, List.nodup_cons] at hn
    rcases List.mem_cons.mp h with h | h
    · rw [← h]; exact dget_cons_self rfl
    · have hx : x ∈ dkeys ps := by
        simp only [dkeys, List.mem_map]
        exact ⟨(x, v), h, rfl⟩
      have hp : ¬ p.1 = x := fun he => hn.1 (he ▸ hx)
      rw [dget_cons_ne hp]
      exact ih hn.2 h

theorem mem_of_dget_nodup {d : Dict} {x : Nat}
    (hx : x ∈ dkeys d) : (x, dget d x) ∈ d := by
  induction d with
  | nil => simp [dkeys] at hx
  | cons p ps ih =>
    by_cases hp : p.1 = x
    · rw [dget_cons_self hp]
      exact List.mem_cons.mpr (Or.inl (by rw [← hp]))
    · rw [dget_cons_ne hp]
      have hx' : x ∈ dkeys ps := by
        simp only [dkeys, List.map_cons, List.mem_cons] at hx
        rcases hx with h | h
        · exact absurd h.symm hp
        · exact h
      exact List.mem_cons.mpr (Or.inr (ih hx'))

theorem pn_keys (ts : List Nat) : ∀ (d : Dict) (q : List Nat),
    dkeys (processNeighbors d q ts).1 = dkeys d := by
  induction ts with
  | nil => intro d q; rfl
  | cons t ts ih => intro d q; simp only [processNeighbors]; rw [ih, dkeys_dset]

theorem pn_dget (ts : List Nat) : ∀ (d : Dict) (q : List Nat) (x : Nat),
    (∀ t ∈ ts, t ∈ dkeys d) → x ∈ dkeys d →
    dget (processNeighbors d q ts).1 x = dget d x - (ts.count x : Int) := by
  induction ts with
  | nil => intro d q x _ _; simp [processNeighbors]
  | cons t ts ih =>
    intro d q x hts hx
    have ht : t ∈ dkeys d := hts t (by simp)
    simp only [processNeighbors]
    have hkeys : dkeys (dset d t (dget d t - 1)) = dkeys d := dkeys_dset d t _
    have hts' : ∀ u ∈ ts, u ∈ dkeys (dset d t (dget d t - 1)) := by
      intro u hu; rw [hkeys]; exact hts u (by simp [hu])
    have hx' : x ∈ dkeys (dset d t (dget d t - 1)) := by rw [hkeys]; exact hx
    rw [ih _ _ _ hts' hx']
    by_cases hxt : x = t
    · subst hxt
      rw [dget_dset_self _ hx, List.count_cons_self]
      push_cast; ring
    · rw [dget_dset_ne _ hxt, List.count_cons_of_ne (by simpa using hxt)]

theorem pn_count (ts : List Nat) : ∀ (d : Dict) (q : List Nat) (x : Nat),
    (∀ t ∈ ts, t ∈ dkeys d) →
    ((processNeighbors d q ts).2).count x = q.count x +
      (if 0 < dget d x ∧ dget d x ≤ (ts.count x : Int) then 1 else 0) := by
  induction ts with
  | nil =>
    intro d q x _
    simp only [processNeighbors, List.count_nil]
    have : ¬ (0 < dget d x ∧ dget d x ≤ ((0:Nat) : Int)) := by push_cast; omega
    simp [this]
  | cons t ts ih =>
    intro d q x hts
    have ht : t ∈ dkeys d := hts t (by simp)
    simp only [processNeighbors]
    have hkeys : dkeys (dset d t (dget d t - 1)) = dkeys d := dkeys_dset d t _
    have hts' : ∀ u ∈ ts, u ∈ dkeys (dset d t (dget d t - 1)) := by
      intro u hu; rw [hkeys]; exact hts u (by simp [hu])
    rw [ih _ _ _ hts']
    by_cases hxt : x = t
    · subst hxt
      rw [dget_dset_self _ ht, List.count_cons_self]
      by_cases hv : dget d x - 1 = 0
      · have hb : (dget d x - 1 == 0) = true := by simp [hv]
        simp only [hb, if_true, List.count_append, List.count_cons_self,
          List.count_nil]
        have h1 : ¬ (0 < dget d x - 1 ∧ dget d x - 1 ≤ (ts.count x : Int)) := by omega
        have h2 : 0 < dget d x ∧ dget d x ≤ ((ts.count x : Nat) : Int) + 1 := by
          constructor <;> omega
        push_cast
        simp [h1, h2]
        omega
      · have hb : (dget d x - 1 == 0) = false := by simp [hv]
        simp only [hb, Bool.false_eq_true, if_false]
        congr 1
        have : (0 < dget d x - 1 ∧ dget d x - 1 ≤ (ts.count x : Int)) ↔
            (0 < dget d x ∧ dget d x ≤ ((ts.count x : Nat) : Int) + 1) := by
          constructor <;> (intro hh; constructor <;> omega)
        push_cast
        rw [if_congr this rfl rfl]
    · rw [dget_dset_ne _ hxt, List.count_cons_of_ne (by simpa using hxt)]
      congr 1
      by_cases hv : dget d t - 1 = 0
      · have hb : (dget d t - 1 == 0) = true := by simp [hv]
        simp only [hb, if_true, List.count_append]
        have : ([t].count x) = 0 := by
          simp [List.count_singleton]
          omega
        omega
      · have hb : (dget d t - 1 == 0) = false := by simp [hv]
        simp [hb]

theorem mem_adj {edges : List Edge} {s t : Nat} :
    t ∈ adj edges s ↔ ∃ e ∈ edges, e.source = s ∧ e.target = t := by
  simp only [adj, List.mem_map, List.mem_filter, beq_iff_eq]
  constructor
  · rintro ⟨e, ⟨he, hs⟩, ht⟩; exact ⟨e, he, hs, ht⟩
  · rintro ⟨e, he, hs, ht⟩; exact ⟨e, ⟨he, hs⟩, ht⟩

theorem adj_count (edges : List Edge) (s k : Nat) :
    (adj edges s).count k =
      edges.countP (fun e => decide (e.source = s ∧ e.target = k)) := by
  induction edges with
  | nil => rfl
  | cons e es ih =>
    rw [List.countP_cons]
    by_cases hs : e.source = s
    · have hadj : adj (e :: es) s = e.target :: adj es s := by
        simp [adj, List.filter_cons, hs]
      rw [hadj, List.count_cons, ih]
      by_cases ht : e.target = k
      · simp [hs, ht]
      · simp [hs, ht]
    · have hadj : adj (e :: es) s = adj es s := by
        simp [adj, List.filter_cons, hs]
      rw [hadj, ih]
      simp [hs]

theorem countP_target_split (edges : List Edge) (k nid : Nat) (order : List Nat)
    (h : nid ∉ order) :
    edges.countP (fun e => decide (e.target = k ∧ e.source ∉ order)) =
    edges.countP (fun e => decide (e.target = k ∧ e.source ∉ order ++ [nid])) +
    edges.countP (fun e => decide (e.source = nid ∧ e.target = k)) := by
  induction edges with
  | nil => rfl
  | cons e es ih =>
    simp only [List.countP_cons]
    rw [ih]
    by_cases ht : e.target = k
    · by_cases hs : e.source = nid
      · have ho : e.source ∉ order := by rw [hs]; exact h
        have d1 : decide (e.target = k ∧ e.source ∉ order) = true := by simp [ht, ho]
        have d2 : decide (e.target = k ∧ e.source ∉ order ++ [nid]) = false := by
          simp [ht, hs]
        have d3 : decide (e.source = nid ∧ e.target = k) = true := by simp [ht, hs]
        rw [d1, d2, d3]
        norm_num
        omega
      · by_cases ho : e.source ∈ order
        · have d1 : decide (e.target = k ∧ e.source ∉ order) = false := by simp [ho]
          have d2 : decide (e.target = k ∧ e.source ∉ order ++ [nid]) = false := by
            simp [ho]
          have d3 : decide (e.source = nid ∧ e.target = k) = false := by simp [hs]
          rw [d1, d2, d3]
          norm_num
        · have d1 : decide (e.target = k ∧ e.source ∉ order) = true := by simp [ht, ho]
          have d2 : decide (e.target = k ∧ e.source ∉ order ++ [nid]) = true := by
            simp [ht, ho, hs]
          have d3 : decide (e.source = nid ∧ e.target = k) = false := by simp [hs]
          rw [d1, d2, d3]
          norm_num
          omega
    · have d1 : decide (e.target = k ∧ e.source ∉ order) = false := by simp [ht]
      have d2 : decide (e.target = k ∧ e.source ∉ order ++ [nid]) = false := by simp [ht]
      have d3 : decide (e.source = nid ∧ e.target = k) = false := by simp [ht]
      rw [d1, d2, d3]
      norm_num

theorem before_append_right {l l' : List Nat} {a b : Nat} (h : Before l a b) :
    Before (l ++ l') a b := by
  obtain ⟨l₁, l₂, l₃, rfl⟩ := h
  exact ⟨l₁, l₂, l₃ ++ l', by simp⟩

theorem before_snoc {l : List Nat} {a b : Nat} (h : a ∈ l) : Before (l ++ [b]) a b := by
  obtain ⟨l₁, l₂, rfl⟩ := List.append_of_mem h
  exact ⟨l₁, l₂, [], by simp⟩

/-- The loop invariant of Kahn's algorithm as implemented by
`build_execution_order`, at the boundary of each `while` iteration.
`K` is the key list of the in-degree dict (the distinct declared node ids in
first-occurrence order), `order` the output built so far, `queue` the
pending ready-queue. -/
structure KInv (edges : List Edge) (K : List Nat) (indeg : Dict)
    (queue order : List Nat) : Prop where
  hkeys : dkeys indeg = K
  hnodupK : K.Nodup
  htargets : ∀ e ∈ edges, e.target ∈ K
  hdeg : ∀ k ∈ K, dget indeg k =
    (edges.countP (fun e => decide (e.target = k ∧ e.source ∉ order)) : Int)
  hsub_q : ∀ x ∈ queue, x ∈ K
  hsub_o : ∀ x ∈ order, x ∈ K
  hnodup : (order ++ queue).Nodup
  hzero : ∀ x ∈ order ++ queue, dget indeg x = 0
  hready : ∀ k ∈ K, dget indeg k = 0 → k ∈ order ∨ k ∈ queue
  hqsafe : ∀ e ∈ edges, e.target ∈ queue → e.source ∈ order
  hosafe : ∀ e ∈ edges, e.target ∈ order → Before order e.source e.target

/-! ### Construction of the initial invariant -/

theorem indeg_foldl_keys_nodup : ∀ (nodes : List Node) (d : Dict),
    (dkeys d).Nodup →
    (dkeys (nodes.foldl (fun d n => if dmem d n.id then d else d ++ [(n.id, 0)]) d)).Nodup := by
  intro nodes
  induction nodes with
  | nil => intro d h; exact h
  | cons n ns ih =>
    intro d h
    simp only [List.foldl_cons]
    by_cases hm : dmem d n.id
    · rw [if_pos hm]; exact ih d h
    · rw [if_neg hm]
      refine ih _ ?_
      have hnm : n.id ∉ dkeys d := fun hc => hm ((dmem_iff_mem_dkeys d n.id).mpr hc)
      simp [dkeys, List.nodup_append]
      simp [dkeys] at h hnm
      exact ⟨h, hnm⟩

theorem mem_dkeys_indeg_foldl : ∀ (nodes : List Node) (d : Dict) (k : Nat),
    k ∈ dkeys (nodes.foldl (fun d n => if dmem d n.id then d else d ++ [(n.id, 0)]) d) ↔
      k ∈ dkeys d ∨ k ∈ nodes.map Node.id := by
  intro nodes
  induction nodes with
  | nil => intro d k; simp
  | cons n ns ih =>
    intro d k
    simp only [List.foldl_cons, List.map_cons, List.mem_cons]
    by_cases hm : dmem d n.id
    · rw [if_pos hm, ih]
      constructor
      · rintro (h | h)
        · exact Or.inl h
        · exact Or.inr (Or.inr h)
      · rintro (h | h | h)
        · exact Or.inl h
        · exact Or.inl (h ▸ (dmem_iff_mem_dkeys d n.id).mp hm)
        · exact Or.inr h
    · rw [if_neg hm, ih]
      have : dkeys (d ++ [(n.id, 0)]) = dkeys d ++ [n.id] := by simp [dkeys]
      rw [this]
      simp only [List.mem_append, List.mem_singleton]
      tauto

theorem indeg_foldl_values : ∀ (nodes : List Node) (d : Dict),
    (∀ p ∈ d, p.2 = (0 : Int)) →
    ∀ p ∈ nodes.foldl (fun d n => if dmem d n.id then d else d ++ [(n.id, 0)]) d,
      p.2 = (0 : Int) := by
  intro nodes
  induction nodes with
  | nil => intro d h; exact h
  | cons n ns ih =>
    intro d h
    simp only [List.foldl_cons]
    by_cases hm : dmem d n.id
    · rw [if_pos hm]; exact ih d h
    · rw [if_neg hm]
      refine ih _ ?_
      intro p hp
      rcases List.mem_append.mp hp with hp | hp
      · exact h p hp
      · simp at hp; rw [hp]

theorem dget_eq_zero_of_values {d : Dict} (h : ∀ p ∈ d, p.2 = (0 : Int)) (k : Nat) :
    dget d k = 0 := by
  unfold dget
  cases hf : d.find? (fun p => p.1 == k) with
  | none => rfl
  | some p => exact h p (List.mem_of_find?_eq_some hf)

theorem indeg_of_nodes_values (nodes : List Node) :
    ∀ p ∈ indeg_of_nodes nodes, p.2 = (0 : Int) :=
  indeg_foldl_values nodes [] (by simp)

theorem indeg_of_nodes_keys_nodup (nodes : List Node) :
    (dkeys (indeg_of_nodes nodes)).Nodup :=
  indeg_foldl_keys_nodup nodes [] (by simp [dkeys])

theorem mem_dkeys_indeg_of_nodes (nodes : List Node) (k : Nat) :
    k ∈ dkeys (indeg_of_nodes nodes) ↔ k ∈ nodes.map Node.id := by
  rw [indeg_of_nodes, mem_dkeys_indeg_foldl]
  simp [dkeys]

theorem indeg_foldl_length : ∀ (nodes : List Node) (d : Dict),
    (nodes.foldl (fun d n => if dmem d n.id then d else d ++ [(n.id, 0)]) d).length ≤
      d.length + nodes.length := by
  intro nodes
  induction nodes with
  | nil => intro d; simp
  | cons n ns ih =>
    intro d
    simp only [List.foldl_cons, List.length_cons]
    by_cases hm : dmem d n.id
    · rw [if_pos hm]
      have := ih d
      omega
    · rw [if_neg hm]
      have := ih (d ++ [(n.id, 0)])
      simp only [List.length_append, List.length_cons, List.length_nil] at this
      omega

theorem addEdges_keys : ∀ (es : List Edge) (d d' : Dict),
    addEdges d es = some d' → dkeys d' = dkeys d := by
  intro es
  induction es with
  | nil => intro d d' h; simp only [addEdges, Option.some.injEq] at h; rw [h]
  | cons e es ih =>
    intro d d' h
    simp only [addEdges] at h
    by_cases hm : dmem d e.target
    · rw [if_pos hm] at h
      rw [ih _ _ h, dkeys_dset]
    · rw [if_neg hm] at h; exact absurd h (by simp)

theorem addEdges_targets : ∀ (es : List Edge) (d d' : Dict),
    addEdges d es = some d' → ∀ e ∈ es, e.target ∈ dkeys d := by
  intro es
  induction es with
  | nil => intro d d' _ e he; simp at he
  | cons e es ih =>
    intro d d' h f hf
    simp only [addEdges] at h
    by_cases hm : dmem d e.target
    · rw [if_pos hm] at h
      rcases List.mem_cons.mp hf with hf | hf
      · rw [hf]; exact (dmem_iff_mem_dkeys d e.target).mp hm
      · have := ih _ _ h f hf
        rwa [dkeys_dset] at this
    · rw [if_neg hm] at h; exact absurd h (by simp)

theorem addEdges_dget : ∀ (es : List Edge) (d d' : Dict),
    addEdges d es = some d' → ∀ k ∈ dkeys d,
    dget d' k = dget d k + (es.countP (fun e => decide (e.target = k)) : Int) := by
  intro es
  induction es with
  | nil =>
    intro d d' h k _
    simp only [addEdges, Option.some.injEq] at h
    rw [← h]; simp
  | cons e es ih =>
    intro d d' h k hk
    simp only [addEdges] at h
    by_cases hm : dmem d e.target
    · rw [if_pos hm] at h
      have hk' : k ∈ dkeys (dset d e.target (dget d e.target + 1)) := by
        rwa [dkeys_dset]
      have := ih _ _ h k hk'
      rw [List.countP_cons]
      by_cases ht : e.target = k
      · rw [this, ht, dget_dset_self _ (ht ▸ (dmem_iff_mem_dkeys d e.target).mp hm)]
        simp [ht]
        ring
      · rw [this, dget_dset_ne _ (fun hc => ht hc.symm)]
        simp [ht]
    · rw [if_neg hm] at h; exact absurd h (by simp)

theorem addEdges_isSome : ∀ (es : List Edge) (d : Dict),
    (∀ e ∈ es, e.target ∈ dkeys d) → ∃ d', addEdges d es = some d' := by
  intro es
  induction es with
  | nil => intro d _; exact ⟨d, rfl⟩
  | cons e es ih =>
    intro d h
    have hm : dmem d e.target = true :=
      (dmem_iff_mem_dkeys d e.target).mpr (h e (by simp))
    simp only [addEdges, if_pos hm]
    refine ih _ ?_
    intro f hf
    rw [dkeys_dset]
    exact h f (by simp [hf])

/-! ### Preservation of the invariant across one `while` iteration -/

theorem kinv_step {edges : List Edge} {K : List Nat} {indeg : Dict} {nid : Nat}
    {rest order : List Nat} (inv : KInv edges K indeg (nid :: rest) order) :
    KInv edges K (processNeighbors indeg rest (adj edges nid)).1
      (processNeighbors indeg rest (adj edges nid)).2 (order ++ [nid]) := by
  obtain ⟨hkeys, hnodupK, htargets, hdeg, hsub_q, hsub_o, hnodup, hzero, hready,
    hqsafe, hosafe⟩ := inv
  have hnidK : nid ∈ K := hsub_q nid (by simp)
  have hts : ∀ t ∈ adj edges nid, t ∈ dkeys indeg := by
    intro t ht
    rw [hkeys]
    obtain ⟨e, he, _, htgt⟩ := mem_adj.mp ht
    exact htgt ▸ htargets e he
  have hkeys' : dkeys (processNeighbors indeg rest (adj edges nid)).1 = K := by
    rw [pn_keys, hkeys]
  have hdget' : ∀ k ∈ K, dget (processNeighbors indeg rest (adj edges nid)).1 k =
      dget indeg k - ((adj edges nid).count k : Int) := by
    intro k hk
    exact pn_dget (adj edges nid) indeg rest k hts (hkeys ▸ hk)
  have hcount' : ∀ x, ((processNeighbors indeg rest (adj edges nid)).2).count x =
      rest.count x + (if 0 < dget indeg x ∧
        dget indeg x ≤ ((adj edges nid).count x : Int) then 1 else 0) :=
    fun x => pn_count (adj edges nid) indeg rest x hts
  have hsplit := List.nodup_append.mp hnodup
  have hnid_order : nid ∉ order := fun hc => hsplit.2.2 hc (by simp)
  have hnid_rest : nid ∉ rest := (List.nodup_cons.mp hsplit.2.1).1
  have hzero_no_edge : ∀ x ∈ K, dget indeg x = 0 → (adj edges nid).count x = 0 := by
    intro x hx h0
    by_contra hc
    obtain ⟨e, he, hsrc, htgt⟩ :=
      mem_adj.mp (List.count_pos_iff.mp (Nat.pos_of_ne_zero hc))
    have h1 : 0 < edges.countP (fun e => decide (e.target = x ∧ e.source ∉ order)) :=
      List.countP_pos_iff.mpr ⟨e, he, by simp [htgt, hsrc ▸ hnid_order]⟩
    have h2 := hdeg x hx
    omega
  have hdeg'' : ∀ k ∈ K, dget (processNeighbors indeg rest (adj edges nid)).1 k =
      (edges.countP (fun e => decide (e.target = k ∧ e.source ∉ order ++ [nid])) : Int) := by
    intro k hk
    rw [hdget' k hk, hdeg k hk, adj_count,
      countP_target_split edges k nid order hnid_order]
    push_cast
    ring
  have hmem_q' : ∀ x, x ∈ (processNeighbors indeg rest (adj edges nid)).2 ↔
      x ∈ rest ∨ (0 < dget indeg x ∧
        dget indeg x ≤ ((adj edges nid).count x : Int)) := by
    intro x
    rw [← List.count_pos_iff, hcount', ← List.count_pos_iff]
    by_cases hC : 0 < dget indeg x ∧ dget indeg x ≤ ((adj edges nid).count x : Int)
    · simp [hC]
    · simp [hC]
  have hq'subK : ∀ x ∈ (processNeighbors indeg rest (adj edges nid)).2, x ∈ K := by
    intro x hx
    rcases (hmem_q' x).mp hx with hx | hx
    · exact hsub_q x (by simp [hx])
    · have : x ∈ adj edges nid := by
        rw [← List.count_pos_iff]
        omega
      exact hkeys ▸ hts x this
  have hq'zero : ∀ x ∈ (processNeighbors indeg rest (adj edges nid)).2,
      dget (processNeighbors indeg rest (adj edges nid)).1 x = 0 := by
    intro x hx
    have hxK : x ∈ K := hq'subK x hx
    rcases (hmem_q' x).mp hx with hm | hm
    · have h0 : dget indeg x = 0 := hzero x (by simp [hm])
      rw [hdget' x hxK, h0, hzero_no_edge x hxK h0]
      simp
    · have hle : dget (processNeighbors indeg rest (adj edges nid)).1 x ≤ 0 := by
        rw [hdget' x hxK]; omega
      have hge := hdeg'' x hxK
      omega
  have hozero : ∀ x, x ∈ order ∨ x = nid →
      dget (processNeighbors indeg rest (adj edges nid)).1 x = 0 := by
    intro x hx
    have hxK : x ∈ K := by
      rcases hx with hx | hx
      · exact hsub_o x hx
      · exact hx ▸ hnidK
    have h0 : dget indeg x = 0 := by
      refine hzero x ?_
      rcases hx with hx | hx
      · simp [hx]
      · simp [hx]
    rw [hdget' x hxK, h0, hzero_no_edge x hxK h0]
    simp
  refine ⟨hkeys', hnodupK, htargets, hdeg'', hq'subK, ?_, ?_, ?_, ?_, ?_, ?_⟩
  · intro x hx
    rcases List.mem_append.mp hx with hx | hx
    · exact hsub_o x hx
    · simp at hx; exact hx ▸ hnidK
  · rw [List.nodup_iff_count_le_one]
    intro x
    rw [List.count_append, List.count_append, hcount']
    by_cases hC : 0 < dget indeg x ∧ dget indeg x ≤ ((adj edges nid).count x : Int)
    · have hxmem : x ∉ order ++ nid :: rest := by
        intro hc
        have := hzero x hc
        omega
      simp only [List.mem_append, List.mem_cons, not_or] at hxmem
      have c1 : order.count x = 0 := List.count_eq_zero.mpr hxmem.1
      have c2 : [nid].count x = 0 := by
        rw [List.count_eq_zero]
        simp
        exact fun hc => hxmem.2.1 hc
      have c3 : rest.count x = 0 := List.count_eq_zero.mpr hxmem.2.2
      simp [hC, c1, c2, c3]
    · have hold := List.nodup_iff_count_le_one.mp hnodup x
      rw [List.count_append, List.count_cons] at hold
      simp only [hC, if_false]
      by_cases hxn : nid = x
      · simp [hxn] at hold ⊢
        omega
      · have : [nid].count x = 0 := by
          rw [List.count_eq_zero]
          simp
          exact fun hc => hxn hc.symm
        simp [hxn] at hold
        omega
  · intro x hx
    rcases List.mem_append.mp hx with hx | hx
    · rcases List.mem_append.mp hx with hx | hx
      · exact hozero x (Or.inl hx)
      · simp at hx; exact hozero x (Or.inr hx)
    · exact hq'zero x hx
  · intro k hk hdk
    rw [hdget' k hk] at hdk
    by_cases hcnt : (adj edges nid).count k = 0
    · have h0 : dget indeg k = 0 := by omega
      rcases hready k hk h0 with h | h
      · exact Or.inl (by simp [h])
      · rcases List.mem_cons.mp h with h | h
        · exact Or.inl (by simp [h])
        · exact Or.inr ((hmem_q' k).mpr (Or.inl h))
    · have hC : 0 < dget indeg k ∧ dget indeg k ≤ ((adj edges nid).count k : Int) := by
        constructor <;> omega
      exact Or.inr ((hmem_q' k).mpr (Or.inr hC))
  · intro e he htq
    have hkK : e.target ∈ K := htargets e he
    have h0 := hq'zero e.target htq
    rw [hdeg'' e.target hkK] at h0
    by_contra hc
    have : 0 < edges.countP
        (fun f => decide (f.target = e.target ∧ f.source ∉ order ++ [nid])) :=
      List.countP_pos_iff.mpr ⟨e, he, by simp [hc]⟩
    omega
  · intro e he hto
    rcases List.mem_append.mp hto with hto | hto
    · exact before_append_right (hosafe e he hto)
    · simp at hto
      have hsrc : e.source ∈ order := hqsafe e he (by simp [hto])
      exact hto ▸ before_snoc hsrc

/-! ### The invariant holds initially and survives the whole loop -/

theorem kinv_start {nodes : List Node} {edges : List Edge} {indeg : Dict}
    (h : addEdges (indeg_of_nodes nodes) edges = some indeg) :
    KInv edges (dkeys (indeg_of_nodes nodes)) indeg
      ((indeg.filter (fun p => p.2 == 0)).map Prod.fst) [] := by
  have hkeys : dkeys indeg = dkeys (indeg_of_nodes nodes) := addEdges_keys edges _ _ h
  have hnodupK := indeg_of_nodes_keys_nodup nodes
  have hnodupKeys : (dkeys indeg).Nodup := hkeys ▸ hnodupK
  have hdg : ∀ k ∈ dkeys (indeg_of_nodes nodes),
      dget indeg k = (edges.countP (fun e => decide (e.target = k)) : Int) := by
    intro k hk
    have := addEdges_dget edges _ _ h k hk
    rw [dget_eq_zero_of_values (indeg_of_nodes_values nodes) k] at this
    omega
  have hseed_zero : ∀ x ∈ (indeg.filter (fun p => p.2 == 0)).map Prod.fst,
      dget indeg x = 0 := by
    intro x hx
    obtain ⟨p, hp, hpx⟩ := List.mem_map.mp hx
    obtain ⟨hpmem, hpval⟩ := List.mem_filter.mp hp
    have hval : p.2 = 0 := by simpa using hpval
    have hmem : (x, (0 : Int)) ∈ indeg := by
      have hpe : p = (x, (0 : Int)) := by
        calc p = (p.1, p.2) := rfl
        _ = (x, (0 : Int)) := by rw [hpx, hval]
      rw [← hpe]
      exact hpmem
    exact dget_of_mem_nodup hnodupKeys hmem
  refine ⟨hkeys, hnodupK, ?_, ?_, ?_, ?_, ?_, ?_, ?_, ?_, ?_⟩
  · exact addEdges_targets edges _ _ h
  · intro k hk
    have hfun : (fun e : Edge => decide (e.target = k ∧ e.source ∉ ([] : List Nat))) =
        (fun e : Edge => decide (e.target = k)) := by
      funext e
      simp
    rw [hdg k hk, hfun]
  · intro x hx
    obtain ⟨p, hp, hpx⟩ := List.mem_map.mp hx
    have hpmem : p ∈ indeg := (List.mem_filter.mp hp).1
    rw [← hkeys]
    exact hpx ▸ List.mem_map.mpr ⟨p, hpmem, rfl⟩
  · intro x hx
    simp at hx
  · simp only [List.nil_append]
    exact ((List.filter_sublist indeg).map Prod.fst).nodup hnodupKeys
  · intro x hx
    simp only [List.nil_append] at hx
    exact hseed_zero x hx
  · intro k hk h0
    refine Or.inr ?_
    have hmemk : (k, dget indeg k) ∈ indeg := mem_of_dget_nodup (hkeys ▸ hk)
    rw [h0] at hmemk
    exact List.mem_map.mpr ⟨(k, 0), List.mem_filter.mpr ⟨hmemk, by simp⟩, rfl⟩
  · intro e he ht
    have h0 := hseed_zero e.target ht
    have hkK : e.target ∈ dkeys (indeg_of_nodes nodes) := addEdges_targets edges _ _ h e he
    rw [hdg e.target hkK] at h0
    have hpos : 0 < edges.countP (fun f => decide (f.target = e.target)) :=
      List.countP_pos_iff.mpr ⟨e, he, by simp⟩
    omega
  · intro e he hto
    simp at hto

theorem kahn_inv_final (edges : List Edge) (K : List Nat) :
    ∀ (n : Nat) (indeg : Dict) (queue order : List Nat),
      queue.length + dweight indeg ≤ n → KInv edges K indeg queue order →
      ∃ indegF, KInv edges K indegF [] (kahn (adj edges) indeg queue order) := by
  intro n
  induction n with
  | zero =>
    intro indeg queue order hle inv
    have hq : queue = [] := List.eq_nil_of_length_eq_zero (by omega)
    subst hq
    simp only [kahn]
    exact ⟨indeg, inv⟩
  | succ n ih =>
    intro indeg queue order hle inv
    cases queue with
    | nil =>
      simp only [kahn]
      exact ⟨indeg, inv⟩
    | cons nid rest =>
      have step := kinv_step inv
      have hm := processNeighbors_measure (adj edges nid) indeg rest
      simp only [kahn]
      refine ih _ _ _ ?_ step
      simp only [List.length_cons] at hle
      omega

theorem build_some_inv {nodes : List Node} {edges : List Edge} {order : List Nat}
    (h : build_execution_order nodes edges = some order) :
    ∃ indegF, KInv edges (dkeys (indeg_of_nodes nodes)) indegF [] order := by
  unfold build_execution_order at h
  cases hA : addEdges (indeg_of_nodes nodes) edges with
  | none => rw [hA] at h; simp at h
  | some indeg =>
    rw [hA] at h
    simp only [Option.some.injEq] at h
    have start := kinv_start hA
    obtain ⟨indegF, inv⟩ := kahn_inv_final edges _
      (((indeg.filter (fun p => p.2 == 0)).map Prod.fst).length + dweight indeg)
      indeg _ [] le_rfl start
    rw [← h]
    exact ⟨indegF, inv⟩

/-! ### From "every pending node has a pending predecessor" to a cycle -/

theorem exists_cycle_of_preds (edges : List Edge) (S : List Nat) (hne : S ≠ [])
    (h : ∀ k ∈ S, ∃ j ∈ S, EdgeRel edges j k) :
    ∃ x l, List.Chain (EdgeRel edges) x (l ++ [x]) := by
  classical
  obtain ⟨k0, hk0⟩ : ∃ k, k ∈ S := by
    cases S with
    | nil => exact absurd rfl hne
    | cons a as => exact ⟨a, by simp⟩
  have hT : ∀ t : {x // x ∈ S.toFinset}, ∃ t' : {x // x ∈ S.toFinset},
      EdgeRel edges t'.1 t.1 := by
    rintro ⟨k, hk⟩
    obtain ⟨j, hj, hr⟩ := h k (List.mem_toFinset.mp hk)
    exact ⟨⟨j, List.mem_toFinset.mpr hj⟩, hr⟩
  choose f hf using hT
  have hstep : ∀ n : Nat,
      EdgeRel edges ((f^[n+1] ⟨k0, List.mem_toFinset.mpr hk0⟩ : {x // x ∈ S.toFinset}).1)
        ((f^[n] ⟨k0, List.mem_toFinset.mpr hk0⟩ : {x // x ∈ S.toFinset}).1) := by
    intro n
    rw [Function.iterate_succ_apply' f n _]
    exact hf _
  have hchain : ∀ d m, ∃ l, List.Chain (EdgeRel edges)
      ((f^[m + d + 1] ⟨k0, List.mem_toFinset.mpr hk0⟩ : {x // x ∈ S.toFinset}).1)
      (l ++ [((f^[m] ⟨k0, List.mem_toFinset.mpr hk0⟩ : {x // x ∈ S.toFinset}).1)]) := by
    intro d
    induction d with
    | zero =>
      intro m
      refine ⟨[], ?_⟩
      simp only [List.nil_append]
      exact List.Chain.cons (hstep m) List.Chain.nil
    | succ d ihd =>
      intro m
      obtain ⟨l, hl⟩ := ihd m
      refine ⟨(f^[m + d + 1] ⟨k0, List.mem_toFinset.mpr hk0⟩ : {x // x ∈ S.toFinset}).1 :: l, ?_⟩
      rw [show m + (d + 1) + 1 = (m + d + 1) + 1 from by omega]
      exact List.Chain.cons (hstep (m + d + 1)) hl
  obtain ⟨i, j, hij, he⟩ := Finite.exists_ne_map_eq_of_infinite
    (fun n => (f^[n] ⟨k0, List.mem_toFinset.mpr hk0⟩ : {x // x ∈ S.toFinset}))
  obtain ⟨a, b, hab, heq⟩ : ∃ a b, a < b ∧
      (f^[a] ⟨k0, List.mem_toFinset.mpr hk0⟩ : {x // x ∈ S.toFinset}) =
      f^[b] ⟨k0, List.mem_toFinset.mpr hk0⟩ := by
    rcases Nat.lt_or_ge i j with hlt | hge
    · exact ⟨i, j, hlt, he⟩
    · exact ⟨j, i, by omega, he.symm⟩
  obtain ⟨l, hl⟩ := hchain (b - a - 1) a
  rw [show a + (b - a - 1) + 1 = b from by omega, ← heq] at hl
  exact ⟨_, l, hl⟩

/-! ### Claim theorems: result channel, paths, loader, gate -/

/-! ### Claim theorems: result channel, paths, loader, gate -/

/-- C1: the spec requires exactly one structured result record on stdout per
invocation; but for the three `run_pipeline`-internal failures — graph error
("Model Training node not connected"), empty dataset ("No valid images
found.") and all-extraction-failed — `main` discards `run_pipeline`'s
returned error dict without printing it, so stdout carries zero records,
not one.  Evaluated here at each failing input. -/
theorem error_returns_emit_no_stdout_record :
    main_stdout (fun _ => some (0 : Nat)) (fun _ _ => (0 : Nat)) "ml-backend" true
      "imgs" [] [⟨1, "Model Training"⟩] [] = ([] : List (OutRecord Nat)) ∧
    main_stdout (fun _ => some (0 : Nat)) (fun _ _ => (0 : Nat)) "ml-backend" true
      "imgs" [⟨"cat", true, ["a.jpg"]⟩] [⟨1, "Load"⟩] [] = ([] : List (OutRecord Nat)) ∧
    main_stdout (fun _ => (none : Option Nat)) (fun _ _ => (0 : Nat)) "ml-backend" true
      "imgs" [⟨"cat", true, ["a.jpg"]⟩] [⟨1, "Model Training"⟩] [] =
      ([] : List (OutRecord Nat)) := by
  have hb : build_execution_order [⟨1, "Load"⟩] [] = some [1] := by
    simp [build_execution_order, indeg_of_nodes, addEdges, dmem, kahn,
      processNeighbors, adj]
  have hb' : build_execution_order [⟨1, "Model Training"⟩] [] = some [1] := by
    simp [build_execution_order, indeg_of_nodes, addEdges, dmem, kahn,
      processNeighbors, adj]
  refine ⟨?_, ?_, ?_⟩
  · simp [main_stdout, run_pipeline, load_dataset]
  · simp only [main_stdout, run_pipeline, hb]
    decide
  · simp only [main_stdout, run_pipeline, hb']
    decide

/-- C2 counterexample: the Training Orchestrator writes the artifacts to
`<script dir>/model.pkl` and `<script dir>/label_encoder.pkl`, while the
Inference Runner looks for them under `<script dir>/uploads/`; at the actual
script directory `ml-backend` the four paths disagree pairwise, so the files
the Inference Runner checks for are not the ones training wrote. -/
theorem predict_paths_differ_at_ml_backend :
    predict_model_path "ml-backend" ≠ training_model_path "ml-backend" ∧
    predict_encoder_path "ml-backend" ≠ training_encoder_path "ml-backend" := by
  decide

/-- C2 amended: for every base directory, the Inference Runner's artifact
paths live in the `uploads` subdirectory and therefore differ from the
Training Orchestrator's write paths, which sit directly in the script
directory; only the file names coincide. -/
theorem predict_paths_never_equal_training_paths :
    ∀ base : String,
      predict_model_path base ≠ training_model_path base ∧
      predict_encoder_path base ≠ training_encoder_path base := by
  intro base
  constructor
  · intro h
    have h2 : (predict_model_path base).length = (training_model_path base).length := by
      rw [h]
    simp [predict_model_path, training_model_path, String.length_append] at h2
    exact absurd h2 (by decide)
  · intro h
    have h2 : (predict_encoder_path base).length = (training_encoder_path base).length := by
      rw [h]
    simp [predict_encoder_path, training_encoder_path, String.length_append] at h2
    exact absurd h2 (by decide)

/-- C3 counterexample: for a graph with an edge whose target id is not a
declared node (node `1` only, edge `1 → 2`), `build_execution_order` raises
`KeyError` at `in_degree[edge['target']] += 1` (modelled by `none`) instead
of returning a partial order — the Sequencer does fail outright on this
input, and no "not fully orderable" signal exists in its interface. -/
theorem sequencer_raises_on_missing_target :
    build_execution_order [⟨1, "A"⟩] [⟨1, 2⟩] = none := by decide

/-- C4 counterexample: with nodes declared in the order `id 2, id 1` and no
edges, the source seeds the ready-queue in dict-insertion (payload) order
and returns `[2, 1]`, whereas seeding in ascending node-id order — the
claimed policy, realized by `build_execution_order_ascSeed` — returns
`[1, 2]`. -/
theorem seed_order_is_insertion_not_ascending :
    build_execution_order [⟨2, "a"⟩, ⟨1, "b"⟩] [] = some [2, 1] ∧
    build_execution_order_ascSeed [⟨2, "a"⟩, ⟨1, "b"⟩] [] = some [1, 2] ∧
    ([2, 1] : List Nat) ≠ [1, 2] := by
  refine ⟨?_, ?_, by decide⟩
  · simp [build_execution_order, indeg_of_nodes, addEdges, dmem, kahn,
      processNeighbors, adj]
  · simp [build_execution_order_ascSeed, indeg_of_nodes, addEdges, dmem, kahn,
      processNeighbors, adj, List.insertionSort, List.orderedInsert]

/-- C6: Stage Reachability Gate scenario.  For the graph
`A(1,"Load") → B(2,"Model Training") → C(3,"Export")` the Sequencer yields
`[1, 2, 3]`; the walk appends each visited label and stops at the first
"Model Training" without consuming the rest: the stages log is exactly
`["Load", "Model Training"]` with `found = true`, and node `C`'s label never
appears. -/
theorem reachability_gate_scenario :
    build_execution_order [⟨1, "Load"⟩, ⟨2, "Model Training"⟩, ⟨3, "Export"⟩]
      [⟨1, 2⟩, ⟨2, 3⟩] = some [1, 2, 3] ∧
    stage_walk (id_to_label [⟨1, "Load"⟩, ⟨2, "Model Training"⟩, ⟨3, "Export"⟩])
      [1, 2, 3] = (["Load", "Model Training"], true) ∧
    "Export" ∉ (stage_walk
      (id_to_label [⟨1, "Load"⟩, ⟨2, "Model Training"⟩, ⟨3, "Export"⟩]) [1, 2, 3]).1 := by
  refine ⟨?_, by decide, by decide⟩
  simp [build_execution_order, indeg_of_nodes, addEdges, dmem, dget, dset, kahn,
    processNeighbors, adj, List.find?, List.filter, List.any]

/-- C8: Dataset Loader scenario.  For the tree `root/cat/{a.jpg, b.png}`,
`root/dog/{c.jpeg}` plus a stray file `root/readme.txt`, the Dataset is
exactly the three samples labeled cat, cat, dog, with `readme.txt` excluded;
and the extension allow-list is matched case-insensitively (`"D.JPG"` passes,
`"readme.txt"` does not). -/
theorem dataset_loader_scenario :
    load_dataset "root" [⟨"cat", true, ["a.jpg", "b.png"]⟩, ⟨"dog", true, ["c.jpeg"]⟩,
      ⟨"readme.txt", false, []⟩] =
      [("root/cat/a.jpg", "cat"), ("root/cat/b.png", "cat"),
       ("root/dog/c.jpeg", "dog")] ∧
    (load_dataset "root" [⟨"cat", true, ["a.jpg", "b.png"]⟩, ⟨"dog", true, ["c.jpeg"]⟩,
      ⟨"readme.txt", false, []⟩]).map Prod.snd = ["cat", "cat", "dog"] ∧
    has_image_ext "D.JPG" = true ∧ has_image_ext "readme.txt" = false := by
  refine ⟨by decide, by decide, by decide, by decide⟩

/-- C7: idempotence of the empty-dataset failure.  Whenever the image
directory yields no qualifying class-subdirectory images, `run_pipeline`
returns the error `"No valid images found."` before ever touching the graph,
so two such jobs produce identical results regardless of their nodes and
edges. -/
theorem empty_dataset_error_independent_of_graph {Feat Acc : Type}
    (extract : String → Option Feat) (trainAcc : List Feat → List Nat → Acc)
    (root dir dir' : String) (listing listing' : List DirEntry)
    (nodes nodes' : List Node) (edges edges' : List Edge)
    (h : load_dataset dir listing = []) (h' : load_dataset dir' listing' = []) :
    run_pipeline extract trainAcc root dir listing nodes edges =
      PipeResult.errorReturn "No valid images found." ∧
    run_pipeline extract trainAcc root dir' listing' nodes' edges' =
      run_pipeline extract trainAcc root dir listing nodes edges := by
  constructor
  · simp [run_pipeline, h]
  · simp [run_pipeline, h, h']

/-- C7 witness: two concrete empty-dataset jobs with different directories,
listings and graphs produce the same `"No valid images found."` error. -/
theorem empty_dataset_error_independent_of_graph_witness :
    run_pipeline (fun _ => some (0 : Nat)) (fun _ _ => (0 : Nat)) "ml-backend" "imgs"
      [] [⟨1, "Model Training"⟩] [] =
      PipeResult.errorReturn "No valid images found." ∧
    run_pipeline (fun _ => some (0 : Nat)) (fun _ _ => (0 : Nat)) "ml-backend" "other"
      [⟨"readme.txt", false, []⟩] [⟨1, "Load"⟩, ⟨2, "Export"⟩] [⟨1, 2⟩] =
      run_pipeline (fun _ => some (0 : Nat)) (fun _ _ => (0 : Nat)) "ml-backend" "imgs"
        [] [⟨1, "Model Training"⟩] [] :=
  empty_dataset_error_independent_of_graph (fun _ => some (0 : Nat))
    (fun _ _ => (0 : Nat)) "ml-backend" "imgs" "other" [] [⟨"readme.txt", false, []⟩]
    [⟨1, "Model Training"⟩] [⟨1, "Load"⟩, ⟨2, "Export"⟩] [] [⟨1, 2⟩]
    (by decide) (by decide)

/-- C10: whenever `run_pipeline` succeeds, the success record's
`downloadLink` is the constant string `"/uploads/model.pkl"`, while the
artifact files are actually written to `model.pkl` and `label_encoder.pkl`
directly in the script directory — the link does not depend on the real
write location. -/
theorem download_link_is_constant {Feat Acc : Type}
    (extract : String → Option Feat) (trainAcc : List Feat → List Nat → Acc)
    (root dir : String) (listing : List DirEntry) (nodes : List Node)
    (edges : List Edge) (writes : List String) (r : SuccessRec Acc)
    (h : run_pipeline extract trainAcc root dir listing nodes edges =
      PipeResult.printed writes r) :
    r.downloadLink = "/uploads/model.pkl" ∧
    writes = [root ++ "/model.pkl", root ++ "/label_encoder.pkl"] := by
  simp only [run_pipeline] at h
  split at h
  · simp at h
  · split at h
    · simp at h
    · split at h
      · simp at h
      · split at h
        · simp at h
        · rw [PipeResult.printed.injEq] at h
          obtain ⟨hw, hr⟩ := h
          refine ⟨?_, ?_⟩
          · rw [← hr]
          · rw [← hw]; rfl

/-- C10 witness: a concrete successful run; the resulting record's
`downloadLink` is `"/uploads/model.pkl"` and the artifacts were written to
`ml-backend/model.pkl` and `ml-backend/label_encoder.pkl`. -/
theorem download_link_is_constant_witness :
    (SuccessRec.mk "Pipeline executed and model trained successfully!"
      "RandomForestClassifier" (0 : Nat) ["Model Training"]
      "/uploads/model.pkl").downloadLink = "/uploads/model.pkl" ∧
    ["ml-backend/model.pkl", "ml-backend/label_encoder.pkl"] =
      ["ml-backend" ++ "/model.pkl", "ml-backend" ++ "/label_encoder.pkl"] :=
  download_link_is_constant (fun _ => some (0 : Nat)) (fun _ _ => (0 : Nat))
    "ml-backend" "imgs" [⟨"cat", true, ["a.jpg"]⟩, ⟨"dog", true, ["b.png"]⟩]
    [⟨1, "Model Training"⟩] []
    ["ml-backend/model.pkl", "ml-backend/label_encoder.pkl"]
    (SuccessRec.mk "Pipeline executed and model trained successfully!"
      "RandomForestClassifier" 0 ["Model Training"] "/uploads/model.pkl")
    (by
      simp [run_pipeline, load_dataset, build_execution_order, indeg_of_nodes,
        addEdges, dmem, kahn, processNeighbors, adj, stage_walk, id_to_label,
        label_encode, training_model_path, training_encoder_path, has_image_ext,
        strEndsWith, lowerStr, lowerChar, List.find?, List.filter, List.filterMap,
        List.insertionSort, List.orderedInsert, List.dedup, List.indexOf]
      decide)

/-! ### Sequencer claims: invariants, totality, completeness on DAGs -/

/-- C9: for every input on which the Topological Sequencer returns (in
particular cyclic graphs and graphs with edges whose source id is not a
declared node), every id in the returned order is a declared node id and no
id appears in the order more than once. -/
theorem order_within_declared_ids (nodes : List Node) (edges : List Edge)
    (order : List Nat) (h : build_execution_order nodes edges = some order) :
    (∀ x ∈ order, x ∈ nodes.map Node.id) ∧ order.Nodup := by
  obtain ⟨indegF, inv⟩ := build_some_inv h
  constructor
  · intro x hx
    exact (mem_dkeys_indeg_of_nodes nodes x).mp (inv.hsub_o x hx)
  · simpa using inv.hnodup

/-- C9 witness: a graph with a cycle (`2 ↔ 3`) and an edge whose source id
(`9`) is not declared; the Sequencer returns the partial order `[0]`, whose
ids are declared and pairwise distinct. -/
theorem order_within_declared_ids_witness :
    (∀ x ∈ ([0] : List Nat),
      x ∈ ([⟨0, "S"⟩, ⟨1, "A"⟩, ⟨2, "B"⟩, ⟨3, "C"⟩] : List Node).map Node.id) ∧
    ([0] : List Nat).Nodup :=
  order_within_declared_ids [⟨0, "S"⟩, ⟨1, "A"⟩, ⟨2, "B"⟩, ⟨3, "C"⟩]
    [⟨2, 3⟩, ⟨3, 2⟩, ⟨9, 1⟩] [0]
    (by
      simp [build_execution_order, indeg_of_nodes, addEdges, dmem, dget, dset, kahn,
        processNeighbors, adj, List.find?, List.filter, List.any])

/-- C3 amended: if every edge's target id is a declared node, the Sequencer
never fails: it returns the (possibly partial) order — with no explicit
"not fully orderable" signal in its interface; callers could only detect
incompleteness by comparing the order's length with the node count.  When
some edge's target id is not declared, it raises `KeyError` instead (see the
counterexample). -/
theorem sequencer_total_when_targets_declared (nodes : List Node) (edges : List Edge)
    (hT : ∀ e ∈ edges, e.target ∈ nodes.map Node.id) :
    ∃ order, build_execution_order nodes edges = some order ∧
      order.length ≤ nodes.length := by
  have hT' : ∀ e ∈ edges, e.target ∈ dkeys (indeg_of_nodes nodes) := by
    intro e he
    rw [mem_dkeys_indeg_of_nodes]
    exact hT e he
  obtain ⟨d', hd'⟩ := addEdges_isSome edges (indeg_of_nodes nodes) hT'
  have hbuild : build_execution_order nodes edges =
      some (kahn (adj edges) d' ((d'.filter (fun p => p.2 == 0)).map Prod.fst) []) := by
    unfold build_execution_order
    rw [hd']
  refine ⟨_, hbuild, ?_⟩
  obtain ⟨indegF, inv⟩ := build_some_inv hbuild
  have hnd : (kahn (adj edges) d' ((d'.filter (fun p => p.2 == 0)).map Prod.fst) []).Nodup := by
    simpa using inv.hnodup
  have hsub : kahn (adj edges) d' ((d'.filter (fun p => p.2 == 0)).map Prod.fst) [] ⊆
      dkeys (indeg_of_nodes nodes) := fun x hx => inv.hsub_o x hx
  have h1 := (List.subperm_of_subset hnd hsub).length_le
  have h2 : (dkeys (indeg_of_nodes nodes)).length ≤ nodes.length := by
    have := indeg_foldl_length nodes []
    simp only [List.length_nil, Nat.zero_add] at this
    simpa [dkeys] using this
  omega

/-- C3 amended witness: a concrete cyclic graph (`2 ↔ 3`, all edge targets
declared); the Sequencer returns an order without raising, of length at most
the node count. -/
theorem sequencer_total_when_targets_declared_witness :
    (∀ e ∈ ([⟨2, 3⟩, ⟨3, 2⟩] : List Edge),
      e.target ∈ ([⟨1, "A"⟩, ⟨2, "B"⟩, ⟨3, "C"⟩] : List Node).map Node.id) ∧
    (∃ order, build_execution_order [⟨1, "A"⟩, ⟨2, "B"⟩, ⟨3, "C"⟩] [⟨2, 3⟩, ⟨3, 2⟩] =
      some order ∧ order.length ≤ ([⟨1, "A"⟩, ⟨2, "B"⟩, ⟨3, "C"⟩] : List Node).length) :=
  ⟨by decide, sequencer_total_when_targets_declared [⟨1, "A"⟩, ⟨2, "B"⟩, ⟨3, "C"⟩]
    [⟨2, 3⟩, ⟨3, 2⟩] (by decide)⟩

/-- C5: for every acyclic graph whose edges reference only declared node
ids, the Sequencer succeeds and its order contains every declared node id
exactly once and only declared ids; for every edge (s, t), s appears
strictly before t; and any rerun on the same graph yields the identical
order. -/
theorem acyclic_graph_topological_order (nodes : List Node) (edges : List Edge)
    (hE : ∀ e ∈ edges, e.source ∈ nodes.map Node.id ∧ e.target ∈ nodes.map Node.id)
    (hA : Acyclic edges) :
    ∃ order, build_execution_order nodes edges = some order ∧
      (∀ x ∈ order, x ∈ nodes.map Node.id) ∧
      (∀ k ∈ nodes.map Node.id, order.count k = 1) ∧
      (∀ e ∈ edges, Before order e.source e.target) ∧
      (∀ order', build_execution_order nodes edges = some order' → order' = order) := by
  have hT' : ∀ e ∈ edges, e.target ∈ dkeys (indeg_of_nodes nodes) := by
    intro e he
    rw [mem_dkeys_indeg_of_nodes]
    exact (hE e he).2
  obtain ⟨d', hd'⟩ := addEdges_isSome edges (indeg_of_nodes nodes) hT'
  have hbuild : build_execution_order nodes edges =
      some (kahn (adj edges) d' ((d'.filter (fun p => p.2 == 0)).map Prod.fst) []) := by
    unfold build_execution_order
    rw [hd']
  obtain ⟨indegF, inv⟩ := build_some_inv hbuild
  have hnd : (kahn (adj edges) d' ((d'.filter (fun p => p.2 == 0)).map Prod.fst) []).Nodup := by
    simpa using inv.hnodup
  have hKsub : ∀ k ∈ dkeys (indeg_of_nodes nodes),
      k ∈ kahn (adj edges) d' ((d'.filter (fun p => p.2 == 0)).map Prod.fst) [] := by
    by_contra hc
    push_neg at hc
    obtain ⟨k0, hkK, hkno⟩ := hc
    have hSne : (dkeys (indeg_of_nodes nodes)).filter
        (fun k => decide (k ∉ kahn (adj edges) d'
          ((d'.filter (fun p => p.2 == 0)).map Prod.fst) [])) ≠ [] := by
      intro hnil
      have hmem : k0 ∈ (dkeys (indeg_of_nodes nodes)).filter
          (fun k => decide (k ∉ kahn (adj edges) d'
            ((d'.filter (fun p => p.2 == 0)).map Prod.fst) [])) :=
        List.mem_filter.mpr ⟨hkK, by simp [hkno]⟩
      rw [hnil] at hmem
      simp at hmem
    have hSprop : ∀ k ∈ (dkeys (indeg_of_nodes nodes)).filter
        (fun k => decide (k ∉ kahn (adj edges) d'
          ((d'.filter (fun p => p.2 == 0)).map Prod.fst) [])),
        ∃ j ∈ (dkeys (indeg_of_nodes nodes)).filter
          (fun k => decide (k ∉ kahn (adj edges) d'
            ((d'.filter (fun p => p.2 == 0)).map Prod.fst) [])),
          EdgeRel edges j k := by
      intro k hk
      obtain ⟨hkK', hkd⟩ := List.mem_filter.mp hk
      have hkno' : k ∉ kahn (adj edges) d'
          ((d'.filter (fun p => p.2 == 0)).map Prod.fst) [] := of_decide_eq_true hkd
      have hdgne : dget indegF k ≠ 0 := by
        intro h0
        rcases inv.hready k hkK' h0 with hmem | hmem
        · exact hkno' hmem
        · simp at hmem
      have hdeg := inv.hdeg k hkK'
      have hpos : 0 < edges.countP (fun e => decide (e.target = k ∧
          e.source ∉ kahn (adj edges) d'
            ((d'.filter (fun p => p.2 == 0)).map Prod.fst) [])) := by
        by_contra hz
        have : edges.countP (fun e => decide (e.target = k ∧
            e.source ∉ kahn (adj edges) d'
              ((d'.filter (fun p => p.2 == 0)).map Prod.fst) [])) = 0 := by omega
        rw [this] at hdeg
        exact hdgne (by omega)
      obtain ⟨e, he, hp⟩ := List.countP_pos_iff.mp hpos
      have hp' := of_decide_eq_true hp
      refine ⟨e.source, List.mem_filter.mpr ⟨?_, by simp [hp'.2]⟩, ⟨e, he, rfl, hp'.1⟩⟩
      rw [mem_dkeys_indeg_of_nodes]
      exact (hE e he).1
    obtain ⟨x, l, hch⟩ := exists_cycle_of_preds edges _ hSne hSprop
    exact hA x l hch
  refine ⟨_, hbuild, ?_, ?_, ?_, ?_⟩
  · intro x hx
    exact (mem_dkeys_indeg_of_nodes nodes x).mp (inv.hsub_o x hx)
  · intro k hk
    exact List.count_eq_one_of_mem hnd
      (hKsub k ((mem_dkeys_indeg_of_nodes nodes k).mpr hk))
  · intro e he
    exact inv.hosafe e he (hKsub e.target (hT' e he))
  · intro order' h'
    rw [hbuild] at h'
    exact (Option.some.injEq _ _).mp h'.symm

/-- A hand proof that the one-edge graph `1 → 2` is acyclic, used to
discharge the acyclicity hypothesis at a concrete input. -/
theorem acyclic_single_edge : Acyclic [⟨1, 2⟩] := by
  intro x l hch
  cases l with
  | nil =>
    simp only [List.nil_append] at hch
    rw [List.chain_cons] at hch
    obtain ⟨e, he, hs, ht⟩ := hch.1
    simp only [List.mem_singleton] at he
    subst he
    simp at hs ht
    omega
  | cons y l' =>
    simp only [List.cons_append] at hch
    rw [List.chain_cons] at hch
    obtain ⟨⟨e, he, hs, ht⟩, hrest⟩ := hch
    simp only [List.mem_singleton] at he
    subst he
    simp at hs ht
    cases l' with
    | nil =>
      simp only [List.nil_append] at hrest
      rw [List.chain_cons] at hrest
      obtain ⟨f, hf, hfs, hft⟩ := hrest.1
      simp only [List.mem_singleton] at hf
      subst hf
      simp at hfs hft
      omega
    | cons z l'' =>
      simp only [List.cons_append] at hrest
      rw [List.chain_cons] at hrest
      obtain ⟨f, hf, hfs, hft⟩ := hrest.1
      simp only [List.mem_singleton] at hf
      subst hf
      simp at hfs hft
      omega

/-- C5 witness: the acyclic two-node graph `1 → 2` with both endpoints
declared; the theorem yields the unique complete topological order. -/
theorem acyclic_graph_topological_order_witness :
    (∀ e ∈ ([⟨1, 2⟩] : List Edge),
      e.source ∈ ([⟨1, "A"⟩, ⟨2, "B"⟩] : List Node).map Node.id ∧
      e.target ∈ ([⟨1, "A"⟩, ⟨2, "B"⟩] : List Node).map Node.id) ∧
    (∃ order, build_execution_order [⟨1, "A"⟩, ⟨2, "B"⟩] [⟨1, 2⟩] = some order ∧
      (∀ x ∈ order, x ∈ ([⟨1, "A"⟩, ⟨2, "B"⟩] : List Node).map Node.id) ∧
      (∀ k ∈ ([⟨1, "A"⟩, ⟨2, "B"⟩] : List Node).map Node.id, order.count k = 1) ∧
      (∀ e ∈ ([⟨1, 2⟩] : List Edge), Before order e.source e.target) ∧
      (∀ order', build_execution_order [⟨1, "A"⟩, ⟨2, "B"⟩] [⟨1, 2⟩] = some order' →
        order' = order)) :=
  ⟨by decide, acyclic_graph_topological_order [⟨1, "A"⟩, ⟨2, "B"⟩] [⟨1, 2⟩]
    (by decide) acyclic_single_edge⟩

/-! ### The seeding order of the ready-queue (C4 amended) -/

theorem indeg_foldl_fresh : ∀ (nodes : List Node) (d : Dict),
    (∀ n ∈ nodes, n.id ∉ dkeys d) → (nodes.map Node.id).Nodup →
    nodes.foldl (fun d n => if dmem d n.id then d else d ++ [(n.id, 0)]) d =
      d ++ nodes.map (fun n => (n.id, (0 : Int))) := by
  intro nodes
  induction nodes with
  | nil => intro d _ _; simp
  | cons n ns ih =>
    intro d hfresh hnd
    have hm : dmem d n.id = false := by
      rw [← Bool.not_eq_true, dmem_iff_mem_dkeys]
      exact hfresh n (by simp)
    simp only [List.foldl_cons, hm, Bool.false_eq_true, if_false]
    have hfresh' : ∀ m ∈ ns, m.id ∉ dkeys (d ++ [(n.id, 0)]) := by
      intro m hms
      have h1 : m.id ∉ dkeys d := hfresh m (by simp [hms])
      have h2 : m.id ≠ n.id := by
        simp only [List.map_cons, List.nodup_cons] at hnd
        intro hc
        exact hnd.1 (hc ▸ List.mem_map.mpr ⟨m, hms, rfl⟩)
      simp [dkeys] at h1 ⊢
      constructor
      · exact fun b hb => h1 b hb
      · exact h2
    have hnd' : (ns.map Node.id).Nodup := by
      simp only [List.map_cons, List.nodup_cons] at hnd
      exact hnd.2
    rw [ih _ hfresh' hnd']
    simp

theorem indeg_of_nodes_eq_of_nodup {nodes : List Node}
    (h : (nodes.map Node.id).Nodup) :
    indeg_of_nodes nodes = nodes.map (fun n => (n.id, (0 : Int))) := by
  have := indeg_foldl_fresh nodes [] (by simp [dkeys]) h
  simpa [indeg_of_nodes] using this

theorem kahn_graph_nil (graph : Nat → List Nat) (hg : ∀ s, graph s = []) :
    ∀ (queue : List Nat) (indeg : Dict) (order : List Nat),
      kahn graph indeg queue order = order ++ queue := by
  intro queue
  induction queue with
  | nil => intro indeg order; simp [kahn]
  | cons nid rest ih =>
    intro indeg order
    simp only [kahn, hg, processNeighbors]
    rw [ih]
    simp

/-- C4 amended: the ready-queue is seeded in dict-iteration order, which is
the first-occurrence (payload declaration) order of the node list — not
ascending id order; ties among ready nodes are then consumed
first-in-first-out by the deque.  Hence on an edge-free graph with distinct
ids the output order is exactly the node-declaration order. -/
theorem seed_follows_node_declaration_order (nodes : List Node)
    (h : (nodes.map Node.id).Nodup) :
    build_execution_order nodes [] = some (nodes.map Node.id) := by
  unfold build_execution_order
  rw [show addEdges (indeg_of_nodes nodes) [] = some (indeg_of_nodes nodes) from rfl]
  simp only [Option.some.injEq]
  rw [indeg_of_nodes_eq_of_nodup h]
  have hfilter : (nodes.map (fun n => (n.id, (0 : Int)))).filter (fun p => p.2 == 0) =
      nodes.map (fun n => (n.id, (0 : Int))) := by
    apply List.filter_eq_self.mpr
    intro p hp
    obtain ⟨n, _, hpn⟩ := List.mem_map.mp hp
    rw [← hpn]
    simp
  rw [hfilter, kahn_graph_nil (adj []) (fun s => by simp [adj])]
  simp [List.map_map, Function.comp]

/-- C4 amended witness: nodes declared as `id 2` then `id 1`, no edges; the
returned order is `[2, 1]`, the declaration order. -/
theorem seed_follows_node_declaration_order_witness :
    (([⟨2, "a"⟩, ⟨1, "b"⟩] : List Node).map Node.id).Nodup ∧
    build_execution_order [⟨2, "a"⟩, ⟨1, "b"⟩] [] =
      some (([⟨2, "a"⟩, ⟨1, "b"⟩] : List Node).map Node.id) :=
  ⟨by decide, seed_follows_node_declaration_order [⟨2, "a"⟩, ⟨1, "b"⟩] (by decide)⟩

end MLPipeline
